import Mathlib

/-!
Verification development for the Obsidian note mover
(`obs_note_mover.py`): a shallow embedding of its link cleaning,
attachment resolution, link/tag extraction and move phase, together
with theorems about the embedded definitions.

Conventions of the embedding:
* Python `pathlib` paths are modelled as their `parts` tuples,
  `FsPath := List String` (an absolute path starts with the part "/").
* Physical file existence is a parameter `isFile : FsPath → Bool`.
* `yaml.safe_load` is an external library; it is passed as a parameter
  `pf : String → Option YVal` returning a generic YAML value
  (`none` models both a parse error and a non-value).
* Machine text is ASCII-modelled: `urllib.parse.unquote` is embedded
  for single-byte percent escapes, `\w` as ASCII alphanumerics plus
  underscore, `str.strip()` for the ASCII whitespace characters.
-/

abbrev FsPath := List String

/-- Whitespace characters recognised by Python's `str.strip()` / `\s`
(ASCII subset). -/
def isPySpace (c : Char) : Bool :=
  c == ' ' || c == '\t' || c == '\n' || c == '\r' || c == '\x0b' || c == '\x0c'

/-- Value of an ASCII hex digit, if `c` is one. -/
def hexVal (c : Char) : Option Nat :=
  if '0' ≤ c ∧ c ≤ '9' then some (c.toNat - '0'.toNat)
  else if 'a' ≤ c ∧ c ≤ 'f' then some (c.toNat - 'a'.toNat + 10)
  else if 'A' ≤ c ∧ c ≤ 'F' then some (c.toNat - 'A'.toNat + 10)
  else none

/-- Percent-decoding of `urllib.parse.unquote`, character-list level:
a `%` followed by two hex digits becomes the denoted byte, anything
else is kept verbatim (single-byte escapes; multi-byte UTF-8 escape
sequences decode to the corresponding byte-valued characters). -/
def unquoteChars : List Char → List Char
  | '%' :: a :: b :: rest =>
    match hexVal a, hexVal b with
    | some x, some y => Char.ofNat (16 * x + y) :: unquoteChars rest
    | _, _ => '%' :: unquoteChars (a :: b :: rest)
  | c :: rest => c :: unquoteChars rest
  | [] => []

def pyUnquote (s : String) : String := String.mk (unquoteChars s.data)

/-- Python `str.strip()`: remove leading and trailing whitespace. -/
def pyStripChars (cs : List Char) : List Char :=
  ((cs.dropWhile isPySpace).reverse.dropWhile isPySpace).reverse

def pyStrip (s : String) : String := String.mk (pyStripChars s.data)

/-- Link cleaning of `resolve_attachment` (source lines 49-52):
`link = urllib.parse.unquote(link).strip()` followed by
`link = link.split('#')[0].split('?')[0]`.  Note that the whitespace
strip happens BEFORE the fragment/query suffixes are cut off. -/
def cleanLink (s : String) : String :=
  String.mk ((((pyStrip (pyUnquote s)).data.takeWhile (fun c => c ≠ '#')).takeWhile
    (fun c => c ≠ '?')))

/-- Modelled from the spec: the cleaning order as the spec words it,
"percent-decode, then strip any trailing `#fragment` or `?query`
suffix, then strip surrounding whitespace".  Kept only to be compared
with `cleanLink`, the order the source actually uses. -/
def cleanLinkSpec (s : String) : String :=
  pyStrip (String.mk ((((pyUnquote s).data.takeWhile (fun c => c ≠ '#')).takeWhile
    (fun c => c ≠ '?'))))

/-- Does the character list start with `pat`?  (Python `startswith`.) -/
def startsWithChars : List Char → List Char → Bool
  | [], _ => true
  | _ :: _, [] => false
  | a :: as, b :: bs => a == b && startsWithChars as bs

/-- Is `pat` an infix of the character list?  (Python's `in`.) -/
def infixChars (pat : List Char) : List Char → Bool
  | [] => startsWithChars pat []
  | c :: cs => startsWithChars pat (c :: cs) || infixChars pat cs

/-- Python `str.lower()` (ASCII model). -/
def pyLower (s : String) : String := String.mk (s.data.map Char.toLower)

/-- Split a character list at every slash (Python `split('/')`). -/
def splitSlashGo (acc : List Char) : List Char → List String
  | [] => [String.mk acc.reverse]
  | '/' :: rest => String.mk acc.reverse :: splitSlashGo [] rest
  | c :: rest => splitSlashGo (c :: acc) rest

/-- Components of a link string, as `pathlib.PurePosixPath` keeps them:
split on "/", drop empty components and single dots. -/
def linkParts (s : String) : List String :=
  (splitSlashGo [] s.data).filter (fun p => !(p == "") && !(p == "."))

/-- `dir / link` of `pathlib`: an absolute link replaces the base. -/
def joinPath (dir : FsPath) (link : String) : FsPath :=
  if startsWithChars ("/").data link.data then "/" :: linkParts link
  else dir ++ linkParts link

/-- One step of lexical `..` normalization (`Path.resolve()` without
symlinks): `..` pops the last component, except at the filesystem
root. -/
def normStep (acc : List String) (p : String) : List String :=
  if p == ".." then
    match acc with
    | [] => []
    | ["/"] => ["/"]
    | _ => acc.dropLast
  else acc ++ [p]

def normalizePath (p : FsPath) : FsPath := p.foldl normStep []

/-- `Path.name`: the last component (empty for a bare root). -/
def pathBase (p : FsPath) : String := p.getLastD ("")

/-- `PurePath.suffix`: the extension of the final component, per the
`pathlib` rule `i = name.rfind('.'); name[i:] if 0 < i < len(name)-1
else ''`. -/
def nameSuffix (name : String) : String :=
  let cs := name.data
  let k := (cs.reverse.takeWhile (fun c => c ≠ '.')).length
  if k < cs.length then
    let i := cs.length - 1 - k
    if 0 < i ∧ i < cs.length - 1 then String.mk (cs.drop i) else ""
  else ""

/-- `PurePath.stem`: the final component minus `nameSuffix`. -/
def nameStem (name : String) : String :=
  let cs := name.data
  let k := (cs.reverse.takeWhile (fun c => c ≠ '.')).length
  if k < cs.length then
    let i := cs.length - 1 - k
    if 0 < i ∧ i < cs.length - 1 then String.mk (cs.take i) else name
  else name

def pathSuffix (p : FsPath) : String := nameSuffix (pathBase p)

/-- Proximity count of `resolve_attachment` (lines 78-84): the number
of positionally matching leading parts of the candidate path and the
note directory, stopping at the first mismatch. -/
def proximityGo : List (String × String) → Nat
  | [] => 0
  | (a, b) :: t => if a = b then 1 + proximityGo t else 0

def proximity (p note_dir : FsPath) : Nat := proximityGo (List.zip p note_dir)

/-- Python `max(candidates, key=key)` starting from `best`: a later
element replaces the current best only when its key is strictly
greater, so the first element attaining the maximum wins. -/
def pyFoldMax (key : α → Nat) (best : α) : List α → α
  | [] => best
  | x :: xs => pyFoldMax key (if key best < key x then x else best) xs

/-- Shallow embedding of `resolve_attachment` (source lines 46-90). -/
def resolve_attachment (isFile : FsPath → Bool) (link : String)
    (note_dir vault_root : FsPath) (vault_index : List (String × List FsPath)) :
    Option FsPath :=
  let l := cleanLink link
  if l = "" then none
  else
    let path_rel := normalizePath (joinPath note_dir l)
    if isFile path_rel then some path_rel
    else
      let path_vault := normalizePath (joinPath vault_root l)
      if isFile path_vault then some path_vault
      else
        let filename := (linkParts l).getLastD ("")
        let lower_name := pyLower filename
        match List.lookup lower_name vault_index with
        | some candidates =>
          if 1 < candidates.length then
            match candidates with
            | c :: cs => some (pyFoldMax (fun p => proximity p note_dir) c cs)
            | [] => none
          else candidates.head?
        | none => none

/-- Character class of the wiki-link target, `[^\]|#]` in
`WIKI_LINK_RE` (source line 18). -/
def wikiTargetChar (c : Char) : Bool := decide (c ≠ ']' ∧ c ≠ '|' ∧ c ≠ '#')

/-- What may follow the captured target inside a wiki link
`!?\[\[target(\|alias)?(#frag)?\]\]`: either the closing brackets at
once, or a `|alias`/`#frag` part, i.e. a non-empty `]`-free run that
must end directly at the closing `]]`.  Returns the text after the
whole match. -/
def wikiTail (cs : List Char) : Option (List Char) :=
  match cs with
  | ']' :: ']' :: r => some r
  | '|' :: r =>
    if r.takeWhile (fun c => c ≠ ']') = [] then none
    else
      match r.dropWhile (fun c => c ≠ ']') with
      | ']' :: ']' :: r2 => some r2
      | _ => none
  | '#' :: r =>
    if r.takeWhile (fun c => c ≠ ']') = [] then none
    else
      match r.dropWhile (fun c => c ≠ ']') with
      | ']' :: ']' :: r2 => some r2
      | _ => none
  | _ => none

/-- Attempt of `WIKI_LINK_RE` after the opening `[[`: a non-empty
maximal run of target characters, then `wikiTail`. -/
def matchWikiCore (cs : List Char) : Option (String × List Char) :=
  let t := cs.takeWhile wikiTargetChar
  if t = [] then none
  else (wikiTail (cs.dropWhile wikiTargetChar)).map (fun r => (String.mk t, r))

/-- Attempt of `WIKI_LINK_RE` at one scan position (`!` optional). -/
def matchWikiAt : List Char → Option (String × List Char)
  | '!' :: '[' :: '[' :: rest => matchWikiCore rest
  | '[' :: '[' :: rest => matchWikiCore rest
  | _ => none

/-- `re.findall` scan for `WIKI_LINK_RE`: leftmost, non-overlapping,
resuming after each match.  The fuel argument bounds the number of
scan steps; each step consumes at least one character, so the input
length is always enough fuel. -/
def wikiGo : Nat → List Char → List String
  | 0, _ => []
  | _ + 1, [] => []
  | n + 1, c :: cs =>
    match matchWikiAt (c :: cs) with
    | some (t, rest) => t :: wikiGo n rest
    | none => wikiGo n cs

/-- `WIKI_LINK_RE.findall(text)`. -/
def wikiFindAll (s : String) : List String := wikiGo s.data.length s.data

/-- Character class of the markdown-link target, `[^" \)]` in
`MD_LINK_RE` (source line 20). -/
def mdTargetChar (c : Char) : Bool := decide (c ≠ '"' ∧ c ≠ ' ' ∧ c ≠ ')')

/-- What may follow the captured target inside
`!?\[label\]\(target(\s+"title")?\)`: the closing parenthesis at
once, or a whitespace run, a double-quoted title and the closing
parenthesis. -/
def mdTail (cs : List Char) : Option (List Char) :=
  match cs with
  | ')' :: r => some r
  | c :: r =>
    if isPySpace c then
      match (c :: r).dropWhile isPySpace with
      | '"' :: r2 =>
        match r2.dropWhile (fun c => c ≠ '"') with
        | '"' :: ')' :: r3 => some r3
        | _ => none
      | _ => none
    else none
  | [] => none

/-- Backtracking over the greedy `[^" \)]+` target of `MD_LINK_RE`:
`grev` is the candidate target reversed; on failure of the
continuation the last target character is given back to the rest. -/
def mdTryTarget : List Char → List Char → Option (String × List Char)
  | [], _ => none
  | c :: gs, rest =>
    match mdTail rest with
    | some r => some (String.mk (c :: gs).reverse, r)
    | none => mdTryTarget gs (c :: rest)

/-- Attempt of `MD_LINK_RE` after the opening `[`: a `]`-free label,
`](`, then the target and `mdTail`. -/
def matchMdCore (cs : List Char) : Option (String × List Char) :=
  match cs.dropWhile (fun c => c ≠ ']') with
  | ']' :: '(' :: r =>
    mdTryTarget (r.takeWhile mdTargetChar).reverse (r.dropWhile mdTargetChar)
  | _ => none

/-- Attempt of `MD_LINK_RE` at one scan position (`!` optional). -/
def matchMdAt : List Char → Option (String × List Char)
  | '!' :: '[' :: rest => matchMdCore rest
  | '[' :: rest => matchMdCore rest
  | _ => none

/-- `re.findall` scan for `MD_LINK_RE` (fuel as in `wikiGo`). -/
def mdGo : Nat → List Char → List String
  | 0, _ => []
  | _ + 1, [] => []
  | n + 1, c :: cs =>
    match matchMdAt (c :: cs) with
    | some (t, rest) => t :: mdGo n rest
    | none => mdGo n cs

/-- `MD_LINK_RE.findall(text)`. -/
def mdFindAll (s : String) : List String := mdGo s.data.length s.data

/-- Word characters of `TAG_RE`'s `[\w-]`: ASCII letters, digits,
underscore (from `\w`) and hyphen. -/
def isTagChar (c : Char) : Bool := c.isAlphanum || c == '_' || c == '-'

/-- Modelled from the spec: the word class as the spec words it,
"letters, digits, hyphen" — without the underscore that `\w`
contains.  Kept only to be compared with `isTagChar`. -/
def isSpecTagChar (c : Char) : Bool := c.isAlphanum || c == '-'

/-- `re.findall` scan for `(?:^|\s)#([\w-]+)` away from the start of
the text, generic in the word-character class `p`: a match consumes
one whitespace character, `#`, and a non-empty maximal word run. -/
def tagGoP (p : Char → Bool) : Nat → List Char → List String
  | 0, _ => []
  | _ + 1, [] => []
  | n + 1, c :: cs =>
    if isPySpace c then
      match cs with
      | d :: cs2 =>
        if d = '#' then
          if cs2.takeWhile p = [] then tagGoP p n cs
          else String.mk (cs2.takeWhile p) :: tagGoP p n (cs2.dropWhile p)
        else tagGoP p n cs
      | [] => tagGoP p n cs
    else tagGoP p n cs

/-- `TAG_RE.findall(text)` generic in the word class: the `^` branch
of `(?:^|\s)` can only fire at position zero (no `re.MULTILINE`),
after which `tagGoP` scans the remainder. -/
def tagFindAllP (p : Char → Bool) (s : String) : List String :=
  match s.data with
  | c :: cs =>
    if c = '#' then
      if cs.takeWhile p = [] then tagGoP p s.data.length s.data
      else String.mk (cs.takeWhile p) :: tagGoP p (cs.dropWhile p).length (cs.dropWhile p)
    else tagGoP p s.data.length s.data
  | [] => tagGoP p s.data.length s.data

/-- `TAG_RE.findall(text)` (source lines 21 and 150). -/
def tagFindAll (s : String) : List String := tagFindAllP isTagChar s

/-- Header of `FRONTMATTER_RE` (`^---\s*\n`, source line 22): the text
must open with `---` followed by a whitespace run containing at least
one newline; the match ends after the last newline of that run
(greedy `\s*` backtracking to the final `\n`).  Returns the remaining
text. -/
def fmHeaderRest (cs : List Char) : Option (List Char) :=
  match cs with
  | '-' :: '-' :: '-' :: rest =>
    let w := rest.takeWhile isPySpace
    if w.contains '\n' then
      some ((w.reverse.takeWhile (fun c => c ≠ '\n')).reverse ++
        rest.dropWhile isPySpace)
    else none
  | _ => none

/-- Non-greedy `(.*?)` of `FRONTMATTER_RE` followed by `\n---\s*\n`:
scan for the earliest `\n---` whose following whitespace run contains
a newline; the accumulator collects the group content (reversed). -/
def fmScan (acc : List Char) : List Char → Option (List Char)
  | '\n' :: '-' :: '-' :: '-' :: t =>
    if (t.takeWhile isPySpace).contains '\n' then some acc.reverse
    else fmScan ('\n' :: acc) ('-' :: '-' :: '-' :: t)
  | c :: t => fmScan (c :: acc) t
  | [] => none

/-- `FRONTMATTER_RE.match(text)` returning `group(1)`, the raw YAML
block between the `---` fences. -/
def fmMatch (text : String) : Option String :=
  (fmHeaderRest text.data).bind (fun rest => (fmScan [] rest).map String.mk)

/-- Generic YAML value as `yaml.safe_load` can return it, to the
extent `process_note` and `extract_frontmatter_links` inspect it:
strings, lists, string-keyed mappings, and anything else. -/
inductive YVal where
  | yStr (s : String)
  | yList (items : List YVal)
  | yMap (entries : List (String × YVal))
  | yOther

/-- Python `value.strip('#')`: remove every leading AND trailing `#`
character (`str.strip` with an argument strips from both ends). -/
def pyStripHash (s : String) : String :=
  String.mk (((s.data.dropWhile (fun c => c == '#')).reverse.dropWhile
    (fun c => c == '#')).reverse)

/-- Modelled from the spec: stripping only the LEADING `#` characters,
as the spec's "stripped of leading `#`" words it.  Kept only to be
compared with `pyStripHash`, what the source actually does. -/
def specLeadingStrip (s : String) : String :=
  String.mk (s.data.dropWhile (fun c => c == '#'))

/-- Candidate tag set of `process_note` (source lines 150-164):
inline `TAG_RE` matches over the whole text, unioned with the
front-matter `tags` field accepted as a single string or a list of
strings, each value passed through `strip('#')`.  The Python sets are
modelled as lists up to membership. -/
def candidateTags (pf : String → Option YVal) (text : String) : List String :=
  let inline := tagFindAll text
  let fm :=
    match fmMatch text with
    | none => []
    | some f =>
      match pf f with
      | some (YVal.yMap data) =>
        match List.lookup ("tags") data with
        | some (YVal.yStr s) => [pyStripHash s]
        | some (YVal.yList items) =>
          items.filterMap (fun it =>
            match it with
            | YVal.yStr s => some (pyStripHash s)
            | _ => none)
        | _ => []
      | _ => []
  inline ++ fm

/-- Python `value.strip('[]!')` used on front-matter link values. -/
def stripWikiDecor (s : String) : String :=
  String.mk (((s.data.dropWhile (fun c => c == '[' || c == ']' || c == '!')).reverse.dropWhile
    (fun c => c == '[' || c == ']' || c == '!')).reverse)

def fmTargetKeys : List String :=
  ["image", "cover", "banner", "file", "attachment", "thumbnail"]

/-- Shallow embedding of `extract_frontmatter_links` (source lines
93-119): for every front-matter key containing one of the target key
substrings (case-insensitively), collect its string value or the
string elements of its list value, stripped of `[]!` decoration. -/
def extract_frontmatter_links (pf : String → Option YVal) (text : String) :
    List String :=
  match fmMatch text with
  | none => []
  | some f =>
    match pf f with
    | some (YVal.yMap data) =>
      data.foldl (fun links kv =>
        if fmTargetKeys.any (fun tk => infixChars tk.data (pyLower kv.1).data) then
          match kv.2 with
          | YVal.yStr v => links ++ [stripWikiDecor v]
          | YVal.yList items =>
            links ++ items.filterMap (fun it =>
              match it with
              | YVal.yStr s => some (stripWikiDecor s)
              | _ => none)
          | _ => links
        else links) []
    | _ => []

def isExternalLink (l : String) : Bool :=
  startsWithChars ("http://").data l.data || startsWithChars ("https://").data l.data ||
    startsWithChars ("//").data l.data || startsWithChars ("mailto:").data l.data

/-- Shallow embedding of `find_attachments` (source lines 122-141):
wiki, markdown and front-matter links, external schemes skipped,
resolved paths kept unless their extension is `.md`, deduplicated
(Python's `list(set(..))` is modelled keeping first occurrences; the
source fixes no order). -/
def find_attachments (pf : String → Option YVal) (isFile : FsPath → Bool)
    (text : String) (note_dir vault_root : FsPath)
    (vault_index : List (String × List FsPath)) : List FsPath :=
  let links := wikiFindAll text ++ mdFindAll text ++ extract_frontmatter_links pf text
  let atts := links.filterMap (fun link =>
    if isExternalLink link then none
    else
      match resolve_attachment isFile link note_dir vault_root vault_index with
      | some r => if pyLower (pathSuffix r) == ".md" then none else some r
      | none => none)
  atts.dedup

structure NoteMetadata where
  path : FsPath
  matched_tags : List String
  attachments : List FsPath
  size : Nat
deriving DecidableEq

/-- Shallow embedding of `process_note` (source lines 144-181): the
note's byte size and text are parameters (the filesystem read is
outside the model), the matched tags are the intersection of the
target tags with the candidate tags (a Python set intersection,
modelled as a filter, exact up to membership), and a note with an
empty intersection yields no record. -/
def process_note (pf : String → Option YVal) (isFile : FsPath → Bool)
    (note_path : FsPath) (note_size : Nat) (text : String)
    (target_tags : List String) (vault_root : FsPath)
    (vault_index : List (String × List FsPath)) : Option NoteMetadata :=
  let note_tags := candidateTags pf text
  let matched := target_tags.filter (fun t => note_tags.contains t)
  if matched.isEmpty then none
  else
    some (NoteMetadata.mk note_path matched
      (find_attachments pf isFile text note_path.dropLast vault_root vault_index)
      note_size)

/-- State of the move phase of `main` (source lines 335-367): the set
of files on disk (as a list up to membership) and the three run-level
tallies.  The `errors` tally is only touched by the `except` branch,
which models OS-level move failures outside this embedding, so it is
constant here. -/
structure MoveSt where
  files : List FsPath
  moved_notes : Nat
  moved_atts : Nat
  errors : Nat
deriving DecidableEq

/-- One attachment of the move loop (source lines 347-353): a missing
source is silently skipped (`continue`), an existing destination of
the same name leaves the attachment where it is, otherwise the file
is moved and the tally incremented. -/
def moveAttachment (dest_dir : FsPath) (st : MoveSt) (att : FsPath) : MoveSt :=
  if att ∈ st.files then
    let dest_att := dest_dir ++ [pathBase att]
    if dest_att ∈ st.files then st
    else
      MoveSt.mk (dest_att :: st.files.erase att) st.moved_notes
        (st.moved_atts + 1) st.errors
  else st

/-- One note of the move loop (source lines 344-362, index `i` from
`enumerate(notes, 1)`): attachments first, then the note itself,
renamed `stem_i.suffix` when its destination name already exists. -/
def moveNote (dest_dir : FsPath) (st : MoveSt) (i : Nat) (note : NoteMetadata) :
    MoveSt :=
  let st1 := note.attachments.foldl (moveAttachment dest_dir) st
  let name := pathBase note.path
  let d0 := dest_dir ++ [name]
  let dest_note :=
    if d0 ∈ st1.files then
      dest_dir ++ [nameStem name ++ "_" ++ toString i ++ nameSuffix name]
    else d0
  MoveSt.mk (dest_note :: st1.files.erase note.path) (st1.moved_notes + 1)
    st1.moved_atts st1.errors

/-- The whole sequential move pass of `main` over the sorted notes. -/
def runMove (dest_dir : FsPath) (notes : List NoteMetadata) (st : MoveSt) : MoveSt :=
  (notes.enumFrom 1).foldl (fun s p => moveNote dest_dir s p.1 p.2) st

theorem mk_data (s : String) : String.mk s.data = s := by
  obtain ⟨l⟩ := s
  rfl

theorem takeWhile_all_true {p : α → Bool} {t : List α}
    (ht : ∀ c ∈ t, p c = true) : t.takeWhile p = t := by
  induction t with
  | nil => rfl
  | cons a l ih =>
    have ha := ht a (List.mem_cons_self a l)
    have hl := ih (fun c hc => ht c (List.mem_cons_of_mem a hc))
    simp [List.takeWhile_cons, ha, hl]

theorem dropWhile_all_true {p : α → Bool} {t : List α}
    (ht : ∀ c ∈ t, p c = true) : t.dropWhile p = [] := by
  induction t with
  | nil => rfl
  | cons a l ih =>
    have ha := ht a (List.mem_cons_self a l)
    have hl := ih (fun c hc => ht c (List.mem_cons_of_mem a hc))
    simp [List.dropWhile_cons, ha, hl]

theorem takeWhile_append_stop {p : α → Bool} {t : List α} {b : α} (r : List α)
    (ht : ∀ c ∈ t, p c = true) (hb : p b = false) :
    (t ++ b :: r).takeWhile p = t := by
  induction t with
  | nil => simp [List.takeWhile_cons, hb]
  | cons a l ih =>
    have ha := ht a (List.mem_cons_self a l)
    have hl := ih (fun c hc => ht c (List.mem_cons_of_mem a hc))
    simp [List.cons_append, List.takeWhile_cons, ha, hl]

theorem dropWhile_append_stop {p : α → Bool} {t : List α} {b : α} (r : List α)
    (ht : ∀ c ∈ t, p c = true) (hb : p b = false) :
    (t ++ b :: r).dropWhile p = b :: r := by
  induction t with
  | nil => simp [List.dropWhile_cons, hb]
  | cons a l ih =>
    have ha := ht a (List.mem_cons_self a l)
    have hl := ih (fun c hc => ht c (List.mem_cons_of_mem a hc))
    simp [List.cons_append, List.dropWhile_cons, ha, hl]

theorem pred_of_mem_takeWhile {p : α → Bool} {t : List α} {c : α}
    (hc : c ∈ t.takeWhile p) : p c = true := by
  induction t with
  | nil => simp [List.takeWhile_nil] at hc
  | cons a l ih =>
    rw [List.takeWhile_cons] at hc
    by_cases ha : p a = true
    · rw [if_pos ha] at hc
      rcases List.mem_cons.mp hc with h | h
      · rwa [h]
      · exact ih h
    · rw [if_neg ha] at hc
      simp at hc

/-- Python `max` with a key: the returned element occurs in the list,
attains the maximal key, and every element at an earlier position than
its witness occurrence has a strictly smaller key (ties are broken by
the first occurrence). -/
theorem pyFoldMax_spec (key : α → Nat) (c : α) (cs : List α) :
    ∃ i, (c :: cs)[i]? = some (pyFoldMax key c cs) ∧
      (∀ x ∈ c :: cs, key x ≤ key (pyFoldMax key c cs)) ∧
      ∀ y ∈ (c :: cs).take i, key y < key (pyFoldMax key c cs) := by
  induction cs generalizing c with
  | nil =>
    refine ⟨0, rfl, ?_, by simp⟩
    intro x hx
    rcases List.mem_cons.mp hx with h | h
    · subst h; exact le_refl _
    · simp at h
  | cons x xs ih =>
    by_cases hcx : key c < key x
    · obtain ⟨i, hi, hmax, hlt⟩ := ih x
      have hr : pyFoldMax key c (x :: xs) = pyFoldMax key x xs := by
        simp [pyFoldMax, hcx]
      refine ⟨i + 1, ?_, ?_, ?_⟩
      · rw [hr, List.getElem?_cons_succ]; exact hi
      · intro z hz
        rw [hr]
        rcases List.mem_cons.mp hz with h | h
        · subst h
          exact le_trans (le_of_lt hcx) (hmax x (List.mem_cons_self x xs))
        · exact hmax z h
      · intro y hy
        rw [hr]
        rw [List.take_succ_cons] at hy
        rcases List.mem_cons.mp hy with h | h
        · subst h
          exact lt_of_lt_of_le hcx (hmax x (List.mem_cons_self x xs))
        · exact hlt y h
    · obtain ⟨i, hi, hmax, hlt⟩ := ih c
      have hr : pyFoldMax key c (x :: xs) = pyFoldMax key c xs := by
        simp [pyFoldMax, hcx]
      cases i with
      | zero =>
        rw [List.getElem?_cons_zero] at hi
        refine ⟨0, ?_, ?_, by simp⟩
        · rw [hr, List.getElem?_cons_zero, hi]
        · intro z hz
          rw [hr]
          rcases List.mem_cons.mp hz with h | h
          · rw [h]; exact hmax c (List.mem_cons_self c xs)
          · rcases List.mem_cons.mp h with h2 | h2
            · rw [h2]
              have hc : some c = some (pyFoldMax key c xs) := hi
              have : c = pyFoldMax key c xs := Option.some.inj hc
              rw [← this]
              exact le_of_not_lt hcx
            · exact hmax z (List.mem_cons_of_mem c h2)
      | succ j =>
        rw [List.getElem?_cons_succ] at hi
        have hc_lt : key c < key (pyFoldMax key c xs) := by
          apply hlt
          rw [List.take_succ_cons]
          exact List.mem_cons_self c _
        refine ⟨j + 2, ?_, ?_, ?_⟩
        · rw [hr, List.getElem?_cons_succ, List.getElem?_cons_succ]; exact hi
        · intro z hz
          rw [hr]
          rcases List.mem_cons.mp hz with h | h
          · rw [h]; exact hmax c (List.mem_cons_self c xs)
          · rcases List.mem_cons.mp h with h2 | h2
            · rw [h2]
              exact le_trans (le_of_not_lt hcx) (hmax c (List.mem_cons_self c xs))
            · exact hmax z (List.mem_cons_of_mem c h2)
        · intro y hy
          rw [hr]
          rw [List.take_succ_cons, List.take_succ_cons] at hy
          rcases List.mem_cons.mp hy with h | h
          · subst h; exact hc_lt
          · rcases List.mem_cons.mp h with h2 | h2
            · subst h2
              exact lt_of_le_of_lt (le_of_not_lt hcx) hc_lt
            · apply hlt
              rw [List.take_succ_cons]
              exact List.mem_cons_of_mem c h2

/-- C2: `resolve_attachment` evaluates its strategies in the fixed
order relative-to-note join, relative-to-vault-root join, then
name-only lowercased-filename index lookup, returning the first
success (a join succeeds iff the normalized joined path is a file);
when both joins fail and the filename is absent from the index it
returns `none`. -/
theorem resolve_attachment_strategy_chain (isFile : FsPath → Bool) (link : String)
    (note_dir vault_root : FsPath) (vault_index : List (String × List FsPath))
    (h0 : cleanLink link ≠ "") :
    (isFile (normalizePath (joinPath note_dir (cleanLink link))) = true →
      resolve_attachment isFile link note_dir vault_root vault_index =
        some (normalizePath (joinPath note_dir (cleanLink link)))) ∧
    (isFile (normalizePath (joinPath note_dir (cleanLink link))) = false →
      isFile (normalizePath (joinPath vault_root (cleanLink link))) = true →
      resolve_attachment isFile link note_dir vault_root vault_index =
        some (normalizePath (joinPath vault_root (cleanLink link)))) ∧
    (isFile (normalizePath (joinPath note_dir (cleanLink link))) = false →
      isFile (normalizePath (joinPath vault_root (cleanLink link))) = false →
      List.lookup (pyLower ((linkParts (cleanLink link)).getLastD (""))) vault_index = none →
      resolve_attachment isFile link note_dir vault_root vault_index = none) := by
  refine ⟨?_, ?_, ?_⟩
  · intro h1
    simp [resolve_attachment, h0, h1]
  · intro h1 h2
    simp [resolve_attachment, h0, h1, h2]
  · intro h1 h2 h3
    rw [List.getLastD_eq_getLast?] at h3
    simp [resolve_attachment, h0, h1, h2, h3]

/-- Witness for C2: a link that exists relative to the note directory
is resolved by the first strategy. -/
theorem resolve_attachment_strategy_chain_witness :
    ((fun p => p == ["/", "v", "n", "img.png"] : FsPath → Bool)
        (normalizePath (joinPath ["/", "v", "n"] (cleanLink ("img.png")))) = true →
      resolve_attachment (fun p => p == ["/", "v", "n", "img.png"]) ("img.png")
          ["/", "v", "n"] ["/", "v"] [] =
        some (normalizePath (joinPath ["/", "v", "n"] (cleanLink ("img.png"))))) ∧
    ((fun p => p == ["/", "v", "n", "img.png"] : FsPath → Bool)
        (normalizePath (joinPath ["/", "v", "n"] (cleanLink ("img.png")))) = false →
      (fun p => p == ["/", "v", "n", "img.png"] : FsPath → Bool)
        (normalizePath (joinPath ["/", "v"] (cleanLink ("img.png")))) = true →
      resolve_attachment (fun p => p == ["/", "v", "n", "img.png"]) ("img.png")
          ["/", "v", "n"] ["/", "v"] [] =
        some (normalizePath (joinPath ["/", "v"] (cleanLink ("img.png"))))) ∧
    ((fun p => p == ["/", "v", "n", "img.png"] : FsPath → Bool)
        (normalizePath (joinPath ["/", "v", "n"] (cleanLink ("img.png")))) = false →
      (fun p => p == ["/", "v", "n", "img.png"] : FsPath → Bool)
        (normalizePath (joinPath ["/", "v"] (cleanLink ("img.png")))) = false →
      List.lookup (pyLower ((linkParts (cleanLink ("img.png"))).getLastD ("")))
        ([] : List (String × List FsPath)) = none →
      resolve_attachment (fun p => p == ["/", "v", "n", "img.png"]) ("img.png")
          ["/", "v", "n"] ["/", "v"] [] = none) :=
  resolve_attachment_strategy_chain (fun p => p == ["/", "v", "n", "img.png"])
    ("img.png") ["/", "v", "n"] ["/", "v"] [] (by decide)

/-- C1: when both joins fail and the name-only index lookup yields
several candidates, the returned path is the candidate with the
greatest positional common-prefix count against the note directory,
the earliest such candidate in the index list winning ties. -/
theorem resolve_attachment_multi_candidate_proximity (isFile : FsPath → Bool)
    (link : String) (note_dir vault_root : FsPath)
    (vault_index : List (String × List FsPath)) (c : FsPath) (cs : List FsPath)
    (h0 : cleanLink link ≠ "")
    (h1 : isFile (normalizePath (joinPath note_dir (cleanLink link))) = false)
    (h2 : isFile (normalizePath (joinPath vault_root (cleanLink link))) = false)
    (h3 : List.lookup (pyLower ((linkParts (cleanLink link)).getLastD (""))) vault_index =
      some (c :: cs))
    (h4 : cs ≠ []) :
    ∃ r, resolve_attachment isFile link note_dir vault_root vault_index = some r ∧
      ∃ i, (c :: cs)[i]? = some r ∧
        (∀ p ∈ c :: cs, proximity p note_dir ≤ proximity r note_dir) ∧
        ∀ y ∈ (c :: cs).take i, proximity y note_dir < proximity r note_dir := by
  cases cs with
  | nil => exact absurd rfl h4
  | cons d ds =>
    have hres : resolve_attachment isFile link note_dir vault_root vault_index =
        some (pyFoldMax (fun p => proximity p note_dir) c (d :: ds)) := by
      rw [List.getLastD_eq_getLast?] at h3
      simp [resolve_attachment, h0, h1, h2, h3]
    obtain ⟨i, hi, hmax, hlt⟩ := pyFoldMax_spec (fun p => proximity p note_dir) c (d :: ds)
    exact ⟨_, hres, i, hi, hmax, hlt⟩

/-- Witness for C1 at the spec's concrete example: index entry
`img.png` holding `/vault/a/img.png` and `/vault/b/img.png`, note
directory `/vault/a`; the resolution returns `/vault/a/img.png`. -/
theorem resolve_attachment_multi_candidate_proximity_witness :
    (∃ r, resolve_attachment (fun _ => false) ("img.png") ["/", "vault", "a"]
        ["/", "vault"]
        [("img.png", [["/", "vault", "a", "img.png"], ["/", "vault", "b", "img.png"]])] =
        some r ∧
      ∃ i, (["/", "vault", "a", "img.png"] :: [["/", "vault", "b", "img.png"]])[i]? = some r ∧
        (∀ p ∈ ["/", "vault", "a", "img.png"] :: [["/", "vault", "b", "img.png"]],
          proximity p ["/", "vault", "a"] ≤ proximity r ["/", "vault", "a"]) ∧
        ∀ y ∈ (["/", "vault", "a", "img.png"] :: [["/", "vault", "b", "img.png"]]).take i,
          proximity y ["/", "vault", "a"] < proximity r ["/", "vault", "a"]) ∧
    resolve_attachment (fun _ => false) ("img.png") ["/", "vault", "a"] ["/", "vault"]
      [("img.png", [["/", "vault", "a", "img.png"], ["/", "vault", "b", "img.png"]])] =
      some ["/", "vault", "a", "img.png"] :=
  ⟨resolve_attachment_multi_candidate_proximity (fun _ => false) ("img.png")
      ["/", "vault", "a"] ["/", "vault"]
      [("img.png", [["/", "vault", "a", "img.png"], ["/", "vault", "b", "img.png"]])]
      ["/", "vault", "a", "img.png"] [["/", "vault", "b", "img.png"]]
      (by decide) rfl rfl (by decide) (by decide),
    by decide⟩

/-- C3 counterexample: the source strips whitespace BEFORE cutting the
`#fragment` suffix, the claim's order would strip it after; on the
raw link `"a #b"` the source's cleaning keeps the trailing space, so
a file named `a` next to the note is NOT found. -/
theorem cleanLink_order_counterexample :
    cleanLink ("a #b") = "a " ∧ cleanLinkSpec ("a #b") = "a" ∧
    cleanLink ("a #b") ≠ cleanLinkSpec ("a #b") ∧
    resolve_attachment (fun p => p == ["/", "n", "a"]) ("a #b") ["/", "n"] ["/"] [] =
      none :=
  ⟨by decide, by decide, by decide, by decide⟩

/-- C3 amended: every link candidate is cleaned by percent-decoding,
then stripping surrounding whitespace, then cutting everything from
the first `#` and the first `?`; a candidate that is empty after this
cleaning is discarded (resolution returns nothing for it). -/
theorem cleanLink_amended_order (s : String) (isFile : FsPath → Bool)
    (note_dir vault_root : FsPath) (vault_index : List (String × List FsPath)) :
    cleanLink s =
      String.mk (((pyStrip (pyUnquote s)).data.takeWhile (fun c => c ≠ '#')).takeWhile
        (fun c => c ≠ '?')) ∧
    (cleanLink s = "" →
      resolve_attachment isFile s note_dir vault_root vault_index = none) := by
  refine ⟨rfl, ?_⟩
  intro h
  simp [resolve_attachment, h]

/-- Witness for the amended C3: `"%20"` percent-decodes to a single
space, cleans to the empty string and is discarded. -/
theorem cleanLink_amended_order_witness :
    cleanLink ("%20") = "" ∧
    resolve_attachment (fun _ => false) ("%20") ["/", "v"] ["/"] [] = none :=
  ⟨by decide,
    (cleanLink_amended_order ("%20") (fun _ => false) ["/", "v"] ["/"] []).2 (by decide)⟩

theorem data_ne_nil_of_ne_empty {s : String} (h : s ≠ "") : s.data ≠ [] := by
  intro hd
  apply h
  obtain ⟨l⟩ := s
  cases hd
  rfl

theorem wikiGo_nil (n : Nat) : wikiGo n [] = [] := by cases n <;> rfl

theorem mdGo_nil (n : Nat) : mdGo n [] = [] := by cases n <;> rfl

theorem tagGoP_nil (p : Char → Bool) (n : Nat) : tagGoP p n [] = [] := by
  cases n <;> rfl

theorem wikiTail_pipe (w r : List Char) (hw : w ≠ []) (hwc : ∀ c ∈ w, c ≠ ']') :
    wikiTail ('|' :: (w ++ ']' :: ']' :: r)) = some r := by
  have hw2 : ∀ c ∈ w, (fun c => decide (c ≠ ']')) c = true := by
    intro c hc; simpa using hwc c hc
  have ht : (w ++ ']' :: ']' :: r).takeWhile (fun c => decide (c ≠ ']')) = w :=
    takeWhile_append_stop _ hw2 (by decide)
  have hd : (w ++ ']' :: ']' :: r).dropWhile (fun c => decide (c ≠ ']')) = ']' :: ']' :: r :=
    dropWhile_append_stop _ hw2 (by decide)
  simp only [wikiTail]
  rw [ht, hd, if_neg hw]
  rfl

theorem wikiTail_hash (w r : List Char) (hw : w ≠ []) (hwc : ∀ c ∈ w, c ≠ ']') :
    wikiTail ('#' :: (w ++ ']' :: ']' :: r)) = some r := by
  have hw2 : ∀ c ∈ w, (fun c => decide (c ≠ ']')) c = true := by
    intro c hc; simpa using hwc c hc
  have ht : (w ++ ']' :: ']' :: r).takeWhile (fun c => decide (c ≠ ']')) = w :=
    takeWhile_append_stop _ hw2 (by decide)
  have hd : (w ++ ']' :: ']' :: r).dropWhile (fun c => decide (c ≠ ']')) = ']' :: ']' :: r :=
    dropWhile_append_stop _ hw2 (by decide)
  simp only [wikiTail]
  rw [ht, hd, if_neg hw]
  rfl

theorem matchWikiCore_append (t : List Char) (b : Char) (r0 r : List Char)
    (ht0 : t ≠ []) (ht : ∀ c ∈ t, wikiTargetChar c = true)
    (hb : wikiTargetChar b = false)
    (htail : wikiTail (b :: r0) = some r) :
    matchWikiCore (t ++ b :: r0) = some (String.mk t, r) := by
  have h1 : (t ++ b :: r0).takeWhile wikiTargetChar = t := takeWhile_append_stop _ ht hb
  have h2 : (t ++ b :: r0).dropWhile wikiTargetChar = b :: r0 := dropWhile_append_stop _ ht hb
  simp only [matchWikiCore]
  rw [h1, h2, if_neg ht0, htail]
  rfl

theorem wikiFindAll_single (s : String) (t : String) (c : Char) (cs : List Char)
    (hs : s.data = c :: cs) (h : matchWikiAt (c :: cs) = some (t, [])) :
    wikiFindAll s = [t] := by
  unfold wikiFindAll
  rw [hs, List.length_cons]
  simp [wikiGo, h, wikiGo_nil]

theorem wikiFindAll_eq_of_data (s : String) (t : List Char) (b : Char) (r0 : List Char)
    (hs : s.data = '[' :: '[' :: (t ++ b :: r0) ∨
      s.data = '!' :: '[' :: '[' :: (t ++ b :: r0))
    (ht0 : t ≠ []) (ht : ∀ c ∈ t, wikiTargetChar c = true)
    (hb : wikiTargetChar b = false)
    (htail : wikiTail (b :: r0) = some []) :
    wikiFindAll s = [String.mk t] := by
  have hcore : matchWikiCore (t ++ b :: r0) = some (String.mk t, []) :=
    matchWikiCore_append t b r0 [] ht0 ht hb htail
  rcases hs with hs | hs
  · refine wikiFindAll_single s (String.mk t) '[' ('[' :: (t ++ b :: r0)) hs ?_
    rw [show matchWikiAt ('[' :: '[' :: (t ++ b :: r0)) =
      matchWikiCore (t ++ b :: r0) from rfl, hcore]
  · refine wikiFindAll_single s (String.mk t) '!' ('[' :: '[' :: (t ++ b :: r0)) hs ?_
    rw [show matchWikiAt ('!' :: '[' :: '[' :: (t ++ b :: r0)) =
      matchWikiCore (t ++ b :: r0) from rfl, hcore]

/-- C4: for every wiki-style link `[[target]]` or `![[target]]`,
optionally followed inside the brackets by a `|alias` and/or a
`#fragment` part, extraction yields exactly the target text, the
alias and the fragment being discarded. -/
theorem wiki_link_extraction_target (t a f : String)
    (ht0 : t ≠ "") (ht : ∀ c ∈ t.data, c ≠ ']' ∧ c ≠ '|' ∧ c ≠ '#')
    (ha0 : a ≠ "") (ha : ∀ c ∈ a.data, c ≠ ']')
    (hf0 : f ≠ "") (hf : ∀ c ∈ f.data, c ≠ ']') :
    wikiFindAll ("[[" ++ t ++ "]]") = [t] ∧
    wikiFindAll ("![[" ++ t ++ "]]") = [t] ∧
    wikiFindAll ("[[" ++ t ++ "|" ++ a ++ "]]") = [t] ∧
    wikiFindAll ("[[" ++ t ++ "#" ++ f ++ "]]") = [t] ∧
    wikiFindAll ("[[" ++ t ++ "|" ++ a ++ "#" ++ f ++ "]]") = [t] ∧
    wikiFindAll ("![[" ++ t ++ "|" ++ a ++ "#" ++ f ++ "]]") = [t] := by
  have htD : t.data ≠ [] := data_ne_nil_of_ne_empty ht0
  have haD : a.data ≠ [] := data_ne_nil_of_ne_empty ha0
  have hfD : f.data ≠ [] := data_ne_nil_of_ne_empty hf0
  have htW : ∀ c ∈ t.data, wikiTargetChar c = true := by
    intro c hc
    exact decide_eq_true (ht c hc)
  have hmix : ∀ c ∈ a.data ++ '#' :: f.data, c ≠ ']' := by
    intro c hc
    rcases List.mem_append.mp hc with h | h
    · exact ha c h
    · rcases List.mem_cons.mp h with h2 | h2
      · rw [h2]; decide
      · exact hf c h2
  have hmixne : a.data ++ '#' :: f.data ≠ [] := by simp
  have hassoc : a.data ++ '#' :: (f.data ++ (']' :: ']' :: [])) =
      (a.data ++ '#' :: f.data) ++ ']' :: ']' :: [] := by
    simp [List.append_assoc]
  have htail_mix : wikiTail ('|' :: (a.data ++ '#' :: (f.data ++ (']' :: ']' :: [])))) =
      some [] := by
    rw [hassoc]
    exact wikiTail_pipe _ [] hmixne hmix
  refine ⟨?_, ?_, ?_, ?_, ?_, ?_⟩
  · have e := wikiFindAll_eq_of_data ("[[" ++ t ++ "]]") t.data ']' ([']'])
      (Or.inl (by simp [String.data_append])) htD htW (by decide) (by decide)
    rwa [mk_data] at e
  · have e := wikiFindAll_eq_of_data ("![[" ++ t ++ "]]") t.data ']' ([']'])
      (Or.inr (by simp [String.data_append])) htD htW (by decide) (by decide)
    rwa [mk_data] at e
  · have e := wikiFindAll_eq_of_data ("[[" ++ t ++ "|" ++ a ++ "]]") t.data '|'
      (a.data ++ (']' :: ']' :: []))
      (Or.inl (by simp [String.data_append, List.append_assoc])) htD htW (by decide)
      (wikiTail_pipe a.data [] haD ha)
    rwa [mk_data] at e
  · have e := wikiFindAll_eq_of_data ("[[" ++ t ++ "#" ++ f ++ "]]") t.data '#'
      (f.data ++ (']' :: ']' :: []))
      (Or.inl (by simp [String.data_append, List.append_assoc])) htD htW (by decide)
      (wikiTail_hash f.data [] hfD hf)
    rwa [mk_data] at e
  · have e := wikiFindAll_eq_of_data ("[[" ++ t ++ "|" ++ a ++ "#" ++ f ++ "]]") t.data '|'
      (a.data ++ '#' :: (f.data ++ (']' :: ']' :: [])))
      (Or.inl (by simp [String.data_append, List.append_assoc])) htD htW (by decide)
      htail_mix
    rwa [mk_data] at e
  · have e := wikiFindAll_eq_of_data ("![[" ++ t ++ "|" ++ a ++ "#" ++ f ++ "]]") t.data '|'
      (a.data ++ '#' :: (f.data ++ (']' :: ']' :: [])))
      (Or.inr (by simp [String.data_append, List.append_assoc])) htD htW (by decide)
      htail_mix
    rwa [mk_data] at e

/-- Witness for C4 at the spec's concrete example
`[[a/b.png|alias#frag]]`, which extracts to `a/b.png`. -/
theorem wiki_link_extraction_target_witness :
    wikiFindAll ("[[" ++ "a/b.png" ++ "]]") = ["a/b.png"] ∧
    wikiFindAll ("![[" ++ "a/b.png" ++ "]]") = ["a/b.png"] ∧
    wikiFindAll ("[[" ++ "a/b.png" ++ "|" ++ "alias" ++ "]]") = ["a/b.png"] ∧
    wikiFindAll ("[[" ++ "a/b.png" ++ "#" ++ "frag" ++ "]]") = ["a/b.png"] ∧
    wikiFindAll ("[[" ++ "a/b.png" ++ "|" ++ "alias" ++ "#" ++ "frag" ++ "]]") =
      ["a/b.png"] ∧
    wikiFindAll ("![[" ++ "a/b.png" ++ "|" ++ "alias" ++ "#" ++ "frag" ++ "]]") =
      ["a/b.png"] :=
  wiki_link_extraction_target ("a/b.png") ("alias") ("frag")
    (by decide) (by decide) (by decide) (by decide) (by decide) (by decide)

theorem mdTail_title (ttl r : List Char) (httl : ∀ c ∈ ttl, c ≠ '"') :
    mdTail (' ' :: '"' :: (ttl ++ '"' :: ')' :: r)) = some r := by
  have h2 : ∀ c ∈ ttl, (fun c => decide (c ≠ '"')) c = true :=
    fun c hc => decide_eq_true (httl c hc)
  have hdrop : (ttl ++ '"' :: ')' :: r).dropWhile (fun c => decide (c ≠ '"')) =
      '"' :: ')' :: r := dropWhile_append_stop _ h2 (by decide)
  have step : mdTail (' ' :: '"' :: (ttl ++ '"' :: ')' :: r)) =
      (match (ttl ++ '"' :: ')' :: r).dropWhile (fun c => decide (c ≠ '"')) with
        | '"' :: ')' :: r3 => some r3
        | _ => none) := rfl
  rw [step, hdrop]
  rfl

theorem mdTryTarget_first (g : List Char) (rest r : List Char) (hg : g ≠ [])
    (htail : mdTail rest = some r) :
    mdTryTarget g.reverse rest = some (String.mk g, r) := by
  cases hrev : g.reverse with
  | nil => rw [List.reverse_eq_nil_iff] at hrev; exact absurd hrev hg
  | cons c gs =>
    show mdTryTarget (c :: gs) rest = _
    simp only [mdTryTarget, htail]
    rw [← hrev, List.reverse_reverse]

theorem matchMdCore_append (lab t : List Char) (b : Char) (r0 r : List Char)
    (hlab : ∀ c ∈ lab, c ≠ ']')
    (ht0 : t ≠ []) (ht : ∀ c ∈ t, mdTargetChar c = true)
    (hb : mdTargetChar b = false)
    (htail : mdTail (b :: r0) = some r) :
    matchMdCore (lab ++ ']' :: '(' :: (t ++ b :: r0)) = some (String.mk t, r) := by
  have hlab2 : ∀ c ∈ lab, (fun c => decide (c ≠ ']')) c = true :=
    fun c hc => decide_eq_true (hlab c hc)
  have hdl : (lab ++ ']' :: '(' :: (t ++ b :: r0)).dropWhile (fun c => decide (c ≠ ']')) =
      ']' :: '(' :: (t ++ b :: r0) := dropWhile_append_stop _ hlab2 (by decide)
  have h1 : (t ++ b :: r0).takeWhile mdTargetChar = t := takeWhile_append_stop _ ht hb
  have h2 : (t ++ b :: r0).dropWhile mdTargetChar = b :: r0 := dropWhile_append_stop _ ht hb
  simp only [matchMdCore]
  rw [hdl]
  show mdTryTarget ((t ++ b :: r0).takeWhile mdTargetChar).reverse
    ((t ++ b :: r0).dropWhile mdTargetChar) = some (String.mk t, r)
  rw [h1, h2]
  exact mdTryTarget_first t (b :: r0) r ht0 htail

theorem mdFindAll_single (s : String) (t : String) (c : Char) (cs : List Char)
    (hs : s.data = c :: cs) (h : matchMdAt (c :: cs) = some (t, [])) :
    mdFindAll s = [t] := by
  unfold mdFindAll
  rw [hs, List.length_cons]
  simp [mdGo, h, mdGo_nil]

theorem mdFindAll_eq_of_data (s : String) (lab t : List Char) (b : Char) (r0 : List Char)
    (hs : s.data = '[' :: (lab ++ ']' :: '(' :: (t ++ b :: r0)) ∨
      s.data = '!' :: '[' :: (lab ++ ']' :: '(' :: (t ++ b :: r0)))
    (hlab : ∀ c ∈ lab, c ≠ ']')
    (ht0 : t ≠ []) (ht : ∀ c ∈ t, mdTargetChar c = true)
    (hb : mdTargetChar b = false)
    (htail : mdTail (b :: r0) = some []) :
    mdFindAll s = [String.mk t] := by
  have hcore : matchMdCore (lab ++ ']' :: '(' :: (t ++ b :: r0)) = some (String.mk t, []) :=
    matchMdCore_append lab t b r0 [] hlab ht0 ht hb htail
  rcases hs with hs | hs
  · refine mdFindAll_single s (String.mk t) '[' (lab ++ ']' :: '(' :: (t ++ b :: r0)) hs ?_
    rw [show matchMdAt ('[' :: (lab ++ ']' :: '(' :: (t ++ b :: r0))) =
      matchMdCore (lab ++ ']' :: '(' :: (t ++ b :: r0)) from rfl, hcore]
  · refine mdFindAll_single s (String.mk t) '!'
      ('[' :: (lab ++ ']' :: '(' :: (t ++ b :: r0))) hs ?_
    rw [show matchMdAt ('!' :: '[' :: (lab ++ ']' :: '(' :: (t ++ b :: r0))) =
      matchMdCore (lab ++ ']' :: '(' :: (t ++ b :: r0)) from rfl, hcore]

/-- C5: for every markdown-style link or image `[label](target)` or
`![label](target)` whose target is followed by a quoted title, the
extraction yields the target with the title discarded (and the plain
form without a title yields the target as well). -/
theorem md_link_extraction_title_discarded (lab t ttl : String)
    (hlab : ∀ c ∈ lab.data, c ≠ ']')
    (ht0 : t ≠ "") (ht : ∀ c ∈ t.data, c ≠ '"' ∧ c ≠ ' ' ∧ c ≠ ')')
    (httl : ∀ c ∈ ttl.data, c ≠ '"') :
    mdFindAll ("[" ++ lab ++ "](" ++ t ++ ")") = [t] ∧
    mdFindAll ("![" ++ lab ++ "](" ++ t ++ ")") = [t] ∧
    mdFindAll ("[" ++ lab ++ "](" ++ t ++ " \"" ++ ttl ++ "\")") = [t] ∧
    mdFindAll ("![" ++ lab ++ "](" ++ t ++ " \"" ++ ttl ++ "\")") = [t] := by
  have htD : t.data ≠ [] := data_ne_nil_of_ne_empty ht0
  have htM : ∀ c ∈ t.data, mdTargetChar c = true := by
    intro c hc
    exact decide_eq_true (ht c hc)
  have htitle : mdTail (' ' :: ('"' :: (ttl.data ++ '"' :: ')' :: []))) = some [] :=
    mdTail_title ttl.data [] httl
  refine ⟨?_, ?_, ?_, ?_⟩
  · have e := mdFindAll_eq_of_data ("[" ++ lab ++ "](" ++ t ++ ")") lab.data t.data ')' []
      (Or.inl (by simp [String.data_append, List.append_assoc])) hlab htD htM
      (by decide) rfl
    rwa [mk_data] at e
  · have e := mdFindAll_eq_of_data ("![" ++ lab ++ "](" ++ t ++ ")") lab.data t.data ')' []
      (Or.inr (by simp [String.data_append, List.append_assoc])) hlab htD htM
      (by decide) rfl
    rwa [mk_data] at e
  · have e := mdFindAll_eq_of_data ("[" ++ lab ++ "](" ++ t ++ " \"" ++ ttl ++ "\")")
      lab.data t.data ' ' ('"' :: (ttl.data ++ '"' :: ')' :: []))
      (Or.inl (by simp [String.data_append, List.append_assoc])) hlab htD htM
      (by decide) htitle
    rwa [mk_data] at e
  · have e := mdFindAll_eq_of_data ("![" ++ lab ++ "](" ++ t ++ " \"" ++ ttl ++ "\")")
      lab.data t.data ' ' ('"' :: (ttl.data ++ '"' :: ')' :: []))
      (Or.inr (by simp [String.data_append, List.append_assoc])) hlab htD htM
      (by decide) htitle
    rwa [mk_data] at e

/-- Witness for C5 at the spec's concrete example
`[x](note.md "Some Title")`, which extracts to `note.md`. -/
theorem md_link_extraction_title_discarded_witness :
    mdFindAll ("[" ++ "x" ++ "](" ++ "note.md" ++ ")") = ["note.md"] ∧
    mdFindAll ("![" ++ "x" ++ "](" ++ "note.md" ++ ")") = ["note.md"] ∧
    mdFindAll ("[" ++ "x" ++ "](" ++ "note.md" ++ " \"" ++ "Some Title" ++ "\")") =
      ["note.md"] ∧
    mdFindAll ("![" ++ "x" ++ "](" ++ "note.md" ++ " \"" ++ "Some Title" ++ "\")") =
      ["note.md"] :=
  md_link_extraction_title_discarded ("x") ("note.md") ("Some Title")
    (by decide) (by decide) (by decide) (by decide)

/-- C6: the matched-tag result of `process_note` is exactly the
case-sensitive intersection of the note's candidate tags with the
target tags, a note with an empty intersection yields no record, and
in particular a note with body `#ready and #draft` matches target
`ready` with matched set exactly `ready` and does not match target
`done`. -/
theorem process_note_tag_intersection (pf : String → Option YVal)
    (isFile : FsPath → Bool) (note_path : FsPath) (note_size : Nat)
    (text : String) (target_tags : List String) (vault_root : FsPath)
    (vault_index : List (String × List FsPath)) :
    (∀ md, process_note pf isFile note_path note_size text target_tags vault_root
        vault_index = some md →
      ∀ t, t ∈ md.matched_tags ↔ t ∈ target_tags ∧ t ∈ candidateTags pf text) ∧
    (process_note pf isFile note_path note_size text target_tags vault_root
        vault_index = none ↔ ∀ t ∈ target_tags, t ∉ candidateTags pf text) ∧
    (∃ md, process_note pf isFile note_path note_size ("#ready and #draft") ["ready"]
        vault_root vault_index = some md ∧ md.matched_tags = ["ready"]) ∧
    process_note pf isFile note_path note_size ("#ready and #draft") ["done"]
      vault_root vault_index = none := by
  have hcand : candidateTags pf ("#ready and #draft") = ["ready", "draft"] := by
    have hfm : fmMatch ("#ready and #draft") = none := rfl
    have htags : tagFindAll ("#ready and #draft") = ["ready", "draft"] := rfl
    simp [candidateTags, hfm, htags]
  refine ⟨?_, ?_, ?_, ?_⟩
  · intro md hmd t
    simp only [process_note] at hmd
    by_cases h : (target_tags.filter
        (fun t => (candidateTags pf text).contains t)).isEmpty
    · rw [if_pos h] at hmd; cases hmd
    · rw [if_neg h] at hmd
      cases hmd
      show t ∈ target_tags.filter (fun t => (candidateTags pf text).contains t) ↔ _
      rw [List.mem_filter]
      constructor
      · intro hh
        exact ⟨hh.1, List.elem_iff.mp hh.2⟩
      · intro hh
        exact ⟨hh.1, List.elem_iff.mpr hh.2⟩
  · simp only [process_note]
    constructor
    · intro h t ht hmem
      by_cases hc : (target_tags.filter
          (fun t => (candidateTags pf text).contains t)).isEmpty
      · rw [List.isEmpty_iff, List.filter_eq_nil_iff] at hc
        exact hc t ht (List.elem_iff.mpr hmem)
      · rw [if_neg hc] at h; cases h
    · intro h
      have hc : (target_tags.filter
          (fun t => (candidateTags pf text).contains t)).isEmpty := by
        rw [List.isEmpty_iff, List.filter_eq_nil_iff]
        intro t ht hcon
        exact h t ht (List.elem_iff.mp hcon)
      rw [if_pos hc]
  · refine ⟨NoteMetadata.mk note_path ["ready"]
      (find_attachments pf isFile ("#ready and #draft") note_path.dropLast vault_root
        vault_index) note_size, ?_, rfl⟩
    have hm1 : (["ready"] : List String).filter
        (fun t => (["ready", "draft"] : List String).contains t) = ["ready"] := rfl
    simp [process_note, hcand, hm1]
  · have hm2 : (["done"] : List String).filter
        (fun t => (["ready", "draft"] : List String).contains t) = [] := rfl
    simp [process_note, hcand, hm2]

/-- Witness for C6: the instantiation at a concrete note. -/
theorem process_note_tag_intersection_witness :
    (∀ md, process_note (fun _ => none) (fun _ => false) ["/", "v", "n.md"] 0
        ("#ready and #draft") ["ready"] ["/", "v"] [] = some md →
      ∀ t, t ∈ md.matched_tags ↔ t ∈ ["ready"] ∧
        t ∈ candidateTags (fun _ => none) ("#ready and #draft")) ∧
    (process_note (fun _ => none) (fun _ => false) ["/", "v", "n.md"] 0
        ("#ready and #draft") ["ready"] ["/", "v"] [] = none ↔
      ∀ t ∈ (["ready"] : List String),
        t ∉ candidateTags (fun _ => none) ("#ready and #draft")) ∧
    (∃ md, process_note (fun _ => none) (fun _ => false) ["/", "v", "n.md"] 0
        ("#ready and #draft") ["ready"] ["/", "v"] [] = some md ∧
      md.matched_tags = ["ready"]) ∧
    process_note (fun _ => none) (fun _ => false) ["/", "v", "n.md"] 0
      ("#ready and #draft") ["done"] ["/", "v"] [] = none :=
  process_note_tag_intersection (fun _ => none) (fun _ => false) ["/", "v", "n.md"] 0
    ("#ready and #draft") ["ready"] ["/", "v"] []

theorem takeWhile_append_of_stop {p : α → Bool} {w v : List α}
    (hw : ∀ c ∈ w, p c = true) (hv : ∀ c ∈ v.take 1, p c = false) :
    (w ++ v).takeWhile p = w ∧ (w ++ v).dropWhile p = v := by
  cases v with
  | nil =>
    simp [takeWhile_all_true hw, dropWhile_all_true hw]
  | cons b r =>
    exact ⟨takeWhile_append_stop r hw (hv b (by simp)),
      dropWhile_append_stop r hw (hv b (by simp))⟩

theorem tagGoP_sound (p : Char → Bool) :
    ∀ n cs, ∀ t ∈ tagGoP p n cs, t.data ≠ [] ∧ ∀ c ∈ t.data, p c = true := by
  intro n
  induction n with
  | zero => intro cs t ht; simp [tagGoP] at ht
  | succ n ih =>
    intro cs t ht
    cases cs with
    | nil => simp [tagGoP] at ht
    | cons c cs1 =>
      by_cases hws : isPySpace c = true
      · cases cs1 with
        | nil =>
          rw [show tagGoP p (n + 1) [c] =
            (if isPySpace c then tagGoP p n [] else tagGoP p n []) from rfl] at ht
          rw [if_pos hws] at ht
          exact ih [] t ht
        | cons d cs2 =>
          rw [show tagGoP p (n + 1) (c :: d :: cs2) =
            (if isPySpace c then
              (if d = '#' then
                (if cs2.takeWhile p = [] then tagGoP p n (d :: cs2)
                 else String.mk (cs2.takeWhile p) :: tagGoP p n (cs2.dropWhile p))
               else tagGoP p n (d :: cs2))
             else tagGoP p n (d :: cs2)) from rfl] at ht
          rw [if_pos hws] at ht
          by_cases hd : d = '#'
          · rw [if_pos hd] at ht
            by_cases hw : cs2.takeWhile p = []
            · rw [if_pos hw] at ht
              exact ih _ t ht
            · rw [if_neg hw] at ht
              rcases List.mem_cons.mp ht with h | h
              · refine ⟨?_, ?_⟩
                · rw [h]; simpa using hw
                · intro e he
                  rw [h] at he
                  exact pred_of_mem_takeWhile (by simpa using he)
              · exact ih _ t h
          · rw [if_neg hd] at ht
            exact ih _ t ht
      · cases cs1 with
        | nil =>
          rw [show tagGoP p (n + 1) [c] =
            (if isPySpace c then tagGoP p n [] else tagGoP p n []) from rfl] at ht
          rw [if_neg hws] at ht
          exact ih [] t ht
        | cons d cs2 =>
          rw [show tagGoP p (n + 1) (c :: d :: cs2) =
            (if isPySpace c then
              (if d = '#' then
                (if cs2.takeWhile p = [] then tagGoP p n (d :: cs2)
                 else String.mk (cs2.takeWhile p) :: tagGoP p n (cs2.dropWhile p))
               else tagGoP p n (d :: cs2))
             else tagGoP p n (d :: cs2)) from rfl] at ht
          rw [if_neg hws] at ht
          exact ih _ t ht

theorem tagFindAllP_sound (p : Char → Bool) (s : String) :
    ∀ t ∈ tagFindAllP p s, t.data ≠ [] ∧ ∀ c ∈ t.data, p c = true := by
  obtain ⟨l⟩ := s
  cases l with
  | nil =>
    intro t ht
    exact tagGoP_sound p 0 [] t ht
  | cons c cs =>
    intro t ht
    by_cases hc : c = '#'
    · subst hc
      rw [show tagFindAllP p (String.mk ('#' :: cs)) =
        (if cs.takeWhile p = [] then tagGoP p ('#' :: cs).length ('#' :: cs)
         else String.mk (cs.takeWhile p) ::
          tagGoP p (cs.dropWhile p).length (cs.dropWhile p)) from rfl] at ht
      by_cases hw : cs.takeWhile p = []
      · rw [if_pos hw] at ht
        exact tagGoP_sound p _ _ t ht
      · rw [if_neg hw] at ht
        rcases List.mem_cons.mp ht with h | h
        · refine ⟨?_, ?_⟩
          · rw [h]; simpa using hw
          · intro e he
            rw [h] at he
            exact pred_of_mem_takeWhile (by simpa using he)
        · exact tagGoP_sound p _ _ t h
    · rw [show tagFindAllP p (String.mk (c :: cs)) =
        (if c = '#' then
          (if cs.takeWhile p = [] then tagGoP p (c :: cs).length (c :: cs)
           else String.mk (cs.takeWhile p) ::
            tagGoP p (cs.dropWhile p).length (cs.dropWhile p))
         else tagGoP p (c :: cs).length (c :: cs)) from rfl] at ht
      rw [if_neg hc] at ht
      exact tagGoP_sound p _ _ t ht

theorem tagFindAllP_complete_head (p : Char → Bool) (w v : List Char)
    (hw0 : w ≠ []) (hw : ∀ c ∈ w, p c = true) (hv : ∀ c ∈ v.take 1, p c = false) :
    String.mk w ∈ tagFindAllP p (String.mk ('#' :: (w ++ v))) := by
  obtain ⟨ht, hd⟩ := takeWhile_append_of_stop hw hv
  rw [show tagFindAllP p (String.mk ('#' :: (w ++ v))) =
    (if (w ++ v).takeWhile p = [] then
      tagGoP p ('#' :: (w ++ v)).length ('#' :: (w ++ v))
     else String.mk ((w ++ v).takeWhile p) ::
      tagGoP p ((w ++ v).dropWhile p).length ((w ++ v).dropWhile p)) from rfl]
  rw [ht, hd, if_neg hw0]
  exact List.mem_cons_self _ _

theorem tagGoP_complete_ws (p : Char → Bool) (sp : Char) (w v : List Char) (n : Nat)
    (hsp : isPySpace sp = true) (hw0 : w ≠ []) (hw : ∀ c ∈ w, p c = true)
    (hv : ∀ c ∈ v.take 1, p c = false) :
    String.mk w ∈ tagGoP p (n + 1) (sp :: '#' :: (w ++ v)) := by
  obtain ⟨ht, hd⟩ := takeWhile_append_of_stop hw hv
  rw [show tagGoP p (n + 1) (sp :: '#' :: (w ++ v)) =
    (if isPySpace sp then
      (if (w ++ v).takeWhile p = [] then tagGoP p n ('#' :: (w ++ v))
       else String.mk ((w ++ v).takeWhile p) :: tagGoP p n ((w ++ v).dropWhile p))
     else tagGoP p n ('#' :: (w ++ v))) from rfl]
  rw [if_pos hsp, ht, hd, if_neg hw0]
  exact List.mem_cons_self _ _

theorem tagFindAllP_complete_ws (p : Char → Bool) (sp : Char) (w v : List Char)
    (hsp : isPySpace sp = true) (hw0 : w ≠ []) (hw : ∀ c ∈ w, p c = true)
    (hv : ∀ c ∈ v.take 1, p c = false) :
    String.mk w ∈ tagFindAllP p (String.mk (sp :: '#' :: (w ++ v))) := by
  have hne : sp ≠ '#' := by
    intro h
    rw [h] at hsp
    exact absurd hsp (by decide)
  rw [show tagFindAllP p (String.mk (sp :: '#' :: (w ++ v))) =
    (if sp = '#' then
      (if ('#' :: (w ++ v)).takeWhile p = [] then
        tagGoP p (sp :: '#' :: (w ++ v)).length (sp :: '#' :: (w ++ v))
       else String.mk (('#' :: (w ++ v)).takeWhile p) ::
        tagGoP p (('#' :: (w ++ v)).dropWhile p).length (('#' :: (w ++ v)).dropWhile p))
     else tagGoP p (sp :: '#' :: (w ++ v)).length (sp :: '#' :: (w ++ v))) from rfl]
  rw [if_neg hne, List.length_cons]
  exact tagGoP_complete_ws p sp w v _ hsp hw0 hw hv

/-- C7 counterexample: `TAG_RE`'s word class is `[\w-]`, and `\w`
contains the underscore; on the text `#a_b` the source extracts the
tag `a_b`, while the claim's class (letters, digits, hyphens only)
would extract only `a`. -/
theorem tag_char_class_counterexample :
    tagFindAll ("#a_b") = ["a_b"] ∧
    tagFindAllP isSpecTagChar ("#a_b") = ["a"] ∧
    tagFindAll ("#a_b") ≠ tagFindAllP isSpecTagChar ("#a_b") ∧
    isTagChar '_' = true ∧ isSpecTagChar '_' = false :=
  ⟨by decide, by decide, by decide, by decide, by decide⟩

/-- C7 amended: inline tag extraction recognizes the `#word` tokens
whose word consists of letters, digits, underscores and hyphens, only
when the `#` is at the start of the text or immediately preceded by a
whitespace character, and contributes the bare name without the `#`:
every extracted tag is a non-empty word over that class (soundness),
a well-formed token at the start of the text or after whitespace is
extracted (completeness), and a `#` preceded by a non-space character
yields nothing. -/
theorem tag_extraction_amended (s : String) (w v : List Char) (sp : Char)
    (hsp : isPySpace sp = true) (hw0 : w ≠ [])
    (hw : ∀ c ∈ w, isTagChar c = true) (hv : ∀ c ∈ v.take 1, isTagChar c = false) :
    (∀ t ∈ tagFindAll s, t.data ≠ [] ∧ ∀ c ∈ t.data, isTagChar c = true) ∧
    String.mk w ∈ tagFindAll (String.mk ('#' :: (w ++ v))) ∧
    String.mk w ∈ tagFindAll (String.mk (sp :: '#' :: (w ++ v))) ∧
    tagFindAll ("a#b") = [] := by
  refine ⟨tagFindAllP_sound isTagChar s, ?_, ?_, by decide⟩
  · exact tagFindAllP_complete_head isTagChar w v hw0 hw hv
  · exact tagFindAllP_complete_ws isTagChar sp w v hsp hw0 hw hv

/-- Witness for the amended C7 at the token `#a_b` after a space. -/
theorem tag_extraction_amended_witness :
    (∀ t ∈ tagFindAll ("x #a_b"),
      t.data ≠ [] ∧ ∀ c ∈ t.data, isTagChar c = true) ∧
    String.mk ['a', '_', 'b'] ∈
      tagFindAll (String.mk ('#' :: (['a', '_', 'b'] ++ [' ', 'x']))) ∧
    String.mk ['a', '_', 'b'] ∈
      tagFindAll (String.mk (' ' :: '#' :: (['a', '_', 'b'] ++ [' ', 'x']))) ∧
    tagFindAll ("a#b") = [] :=
  tag_extraction_amended ("x #a_b") ['a', '_', 'b'] [' ', 'x'] ' '
    (by decide) (by decide) (by decide) (by decide)

/-- C8 counterexample: Python `strip('#')` removes `#` characters
from BOTH ends; on the front-matter tags value `ready#` the source
produces the candidate tag `ready`, while the claim's leading-only
strip would keep `ready#`. -/
theorem frontmatter_strip_counterexample :
    pyStripHash ("ready#") = "ready" ∧
    specLeadingStrip ("ready#") = "ready#" ∧
    pyStripHash ("ready#") ≠ specLeadingStrip ("ready#") ∧
    candidateTags (fun _ => some (YVal.yMap [("tags", YVal.yStr ("ready#"))]))
      ("---\nx\n---\n") = ["ready"] :=
  ⟨by decide, by decide, by decide, by decide⟩

/-- C8 amended: a `tags` field in the parsed front-matter mapping is
accepted as a single string or as a list of strings, each value is
stripped of its leading AND trailing `#` characters, the results are
unioned into the candidate tag set; in particular front-matter tags
`[ready, archive]` match the target tag `archive` with no inline
`#archive` token in the body. -/
theorem frontmatter_tags_amended (pf : String → Option YVal) (text f : String)
    (m : List (String × YVal))
    (hfm : fmMatch text = some f) (hpf : pf f = some (YVal.yMap m)) :
    (∀ s, List.lookup ("tags") m = some (YVal.yStr s) →
      pyStripHash s ∈ candidateTags pf text) ∧
    (∀ items s, List.lookup ("tags") m = some (YVal.yList items) →
      YVal.yStr s ∈ items → pyStripHash s ∈ candidateTags pf text) ∧
    (∃ md, process_note
        (fun _ => some (YVal.yMap
          [("tags", YVal.yList [YVal.yStr ("ready"), YVal.yStr ("archive")])]))
        (fun _ => false) ["/", "v", "n.md"] 0
        ("---\ntags: [ready, archive]\n---\nno inline tags here") ["archive"]
        ["/", "v"] [] = some md ∧
      md.matched_tags = ["archive"]) := by
  refine ⟨?_, ?_, ?_⟩
  · intro s hs
    have he : candidateTags pf text = tagFindAll text ++ [pyStripHash s] := by
      simp [candidateTags, hfm, hpf, hs]
    rw [he]
    exact List.mem_append_right _ (by simp)
  · intro items s hitems hmem
    have he : candidateTags pf text = tagFindAll text ++ items.filterMap (fun it =>
        match it with
        | YVal.yStr s => some (pyStripHash s)
        | _ => none) := by
      simp [candidateTags, hfm, hpf, hitems]
    rw [he]
    exact List.mem_append_right _ (List.mem_filterMap.mpr ⟨YVal.yStr s, hmem, rfl⟩)
  · exact ⟨NoteMetadata.mk ["/", "v", "n.md"] ["archive"] [] 0, by decide, rfl⟩

/-- Witness for the amended C8 at the concrete front-matter mapping
with tags `[ready, archive]`. -/
theorem frontmatter_tags_amended_witness :
    (∀ s, List.lookup ("tags")
        [("tags", YVal.yList [YVal.yStr ("ready"), YVal.yStr ("archive")])] =
        some (YVal.yStr s) →
      pyStripHash s ∈ candidateTags
        (fun _ => some (YVal.yMap
          [("tags", YVal.yList [YVal.yStr ("ready"), YVal.yStr ("archive")])]))
        ("---\ntags: [ready, archive]\n---\nno inline tags here")) ∧
    (∀ items s, List.lookup ("tags")
        [("tags", YVal.yList [YVal.yStr ("ready"), YVal.yStr ("archive")])] =
        some (YVal.yList items) →
      YVal.yStr s ∈ items →
      pyStripHash s ∈ candidateTags
        (fun _ => some (YVal.yMap
          [("tags", YVal.yList [YVal.yStr ("ready"), YVal.yStr ("archive")])]))
        ("---\ntags: [ready, archive]\n---\nno inline tags here")) ∧
    (∃ md, process_note
        (fun _ => some (YVal.yMap
          [("tags", YVal.yList [YVal.yStr ("ready"), YVal.yStr ("archive")])]))
        (fun _ => false) ["/", "v", "n.md"] 0
        ("---\ntags: [ready, archive]\n---\nno inline tags here") ["archive"]
        ["/", "v"] [] = some md ∧
      md.matched_tags = ["archive"]) :=
  frontmatter_tags_amended
    (fun _ => some (YVal.yMap
      [("tags", YVal.yList [YVal.yStr ("ready"), YVal.yStr ("archive")])]))
    ("---\ntags: [ready, archive]\n---\nno inline tags here")
    ("tags: [ready, archive]")
    [("tags", YVal.yList [YVal.yStr ("ready"), YVal.yStr ("archive")])]
    (by decide) rfl

theorem moveAttachment_errors (d : FsPath) (s : MoveSt) (a : FsPath) :
    (moveAttachment d s a).errors = s.errors := by
  by_cases h1 : a ∈ s.files
  · by_cases h2 : d ++ [pathBase a] ∈ s.files
    · simp [moveAttachment, h1, h2]
    · simp [moveAttachment, h1, h2]
  · simp [moveAttachment, h1]

theorem foldl_moveAttachment_errors (d : FsPath) (l : List FsPath) (s : MoveSt) :
    (l.foldl (moveAttachment d) s).errors = s.errors := by
  induction l generalizing s with
  | nil => rfl
  | cons a l ih => rw [List.foldl_cons, ih, moveAttachment_errors]

/-- C9 counterexample: an attachment whose destination name already
exists at the destination directory is NOT moved and NOT renamed —
the move loop leaves the whole state unchanged — contradicting the
claim that the move is performed anyway under a numeric-suffix
name. -/
theorem attachment_collision_counterexample :
    moveAttachment ["/", "d"]
      (MoveSt.mk [["/", "v", "img.png"], ["/", "d", "img.png"]] 0 0 0)
      ["/", "v", "img.png"] =
      MoveSt.mk [["/", "v", "img.png"], ["/", "d", "img.png"]] 0 0 0 ∧
    ["/", "v", "img.png"] ∈ (moveAttachment ["/", "d"]
      (MoveSt.mk [["/", "v", "img.png"], ["/", "d", "img.png"]] 0 0 0)
      ["/", "v", "img.png"]).files ∧
    (moveAttachment ["/", "d"]
      (MoveSt.mk [["/", "v", "img.png"], ["/", "d", "img.png"]] 0 0 0)
      ["/", "v", "img.png"]).moved_atts = 0 :=
  ⟨by decide, by decide, by decide⟩

/-- C9 amended: during the move phase a NOTE whose destination name
already exists is still moved, under the name `stem_i.suffix` built
from the loop index; an ATTACHMENT whose destination name already
exists is skipped and left in place; neither case touches the error
tally. -/
theorem move_collision_amended (dest_dir : FsPath) (st : MoveSt) (i : Nat)
    (note : NoteMetadata) (att : FsPath)
    (hcol : dest_dir ++ [pathBase note.path] ∈
      (note.attachments.foldl (moveAttachment dest_dir) st).files)
    (ha1 : att ∈ st.files) (ha2 : dest_dir ++ [pathBase att] ∈ st.files) :
    (moveNote dest_dir st i note).files =
      (dest_dir ++ [nameStem (pathBase note.path) ++ "_" ++ toString i ++
        nameSuffix (pathBase note.path)]) ::
        (note.attachments.foldl (moveAttachment dest_dir) st).files.erase note.path ∧
    moveAttachment dest_dir st att = st ∧
    (moveNote dest_dir st i note).errors = st.errors ∧
    (moveAttachment dest_dir st att).errors = st.errors := by
  have hatt : moveAttachment dest_dir st att = st := by
    simp [moveAttachment, ha1, ha2]
  refine ⟨?_, hatt, ?_, by rw [hatt]⟩
  · simp [moveNote, hcol]
  · simp [moveNote, foldl_moveAttachment_errors]

/-- Witness for the amended C9: a note `n.md` at loop index 2 whose
destination name exists is moved as `n_2.md`; an attachment whose
destination name exists is left in place. -/
theorem move_collision_amended_witness :
    (moveNote ["/", "d"]
      (MoveSt.mk [["/", "v", "n.md"], ["/", "d", "n.md"], ["/", "v", "img.png"],
        ["/", "d", "img.png"]] 0 0 0) 2
      (NoteMetadata.mk ["/", "v", "n.md"] ["t"] [] 5)).files =
      (["/", "d"] ++ [nameStem (pathBase ["/", "v", "n.md"]) ++ "_" ++ toString 2 ++
        nameSuffix (pathBase ["/", "v", "n.md"])]) ::
        ((NoteMetadata.mk ["/", "v", "n.md"] ["t"] [] 5).attachments.foldl
          (moveAttachment ["/", "d"])
          (MoveSt.mk [["/", "v", "n.md"], ["/", "d", "n.md"], ["/", "v", "img.png"],
            ["/", "d", "img.png"]] 0 0 0)).files.erase ["/", "v", "n.md"] ∧
    moveAttachment ["/", "d"]
      (MoveSt.mk [["/", "v", "n.md"], ["/", "d", "n.md"], ["/", "v", "img.png"],
        ["/", "d", "img.png"]] 0 0 0) ["/", "v", "img.png"] =
      MoveSt.mk [["/", "v", "n.md"], ["/", "d", "n.md"], ["/", "v", "img.png"],
        ["/", "d", "img.png"]] 0 0 0 ∧
    (moveNote ["/", "d"]
      (MoveSt.mk [["/", "v", "n.md"], ["/", "d", "n.md"], ["/", "v", "img.png"],
        ["/", "d", "img.png"]] 0 0 0) 2
      (NoteMetadata.mk ["/", "v", "n.md"] ["t"] [] 5)).errors = 0 ∧
    (moveAttachment ["/", "d"]
      (MoveSt.mk [["/", "v", "n.md"], ["/", "d", "n.md"], ["/", "v", "img.png"],
        ["/", "d", "img.png"]] 0 0 0) ["/", "v", "img.png"]).errors = 0 :=
  move_collision_amended ["/", "d"]
    (MoveSt.mk [["/", "v", "n.md"], ["/", "d", "n.md"], ["/", "v", "img.png"],
      ["/", "d", "img.png"]] 0 0 0) 2
    (NoteMetadata.mk ["/", "v", "n.md"] ["t"] [] 5) ["/", "v", "img.png"]
    (by decide) (by decide) (by decide)

/-- C10: before each attachment move the mover checks the source
still exists; a missing attachment (for instance one already
relocated by an earlier note's move) is silently skipped, leaving the
state — including the error tally — unchanged; in particular moving
two notes that both reference `shared.png` relocates it exactly once
and ends with a zero error tally. -/
theorem shared_attachment_skip (dest_dir : FsPath) (st : MoveSt) (att : FsPath)
    (h : att ∉ st.files) :
    moveAttachment dest_dir st att = st ∧
    (moveAttachment dest_dir st att).errors = st.errors ∧
    (runMove ["/", "d"]
      [NoteMetadata.mk ["/", "v", "a", "n1.md"] ["ready"] [["/", "v", "shared.png"]] 10,
       NoteMetadata.mk ["/", "v", "b", "n2.md"] ["ready"] [["/", "v", "shared.png"]] 10]
      (MoveSt.mk [["/", "v", "a", "n1.md"], ["/", "v", "b", "n2.md"],
        ["/", "v", "shared.png"]] 0 0 0)).errors = 0 ∧
    (runMove ["/", "d"]
      [NoteMetadata.mk ["/", "v", "a", "n1.md"] ["ready"] [["/", "v", "shared.png"]] 10,
       NoteMetadata.mk ["/", "v", "b", "n2.md"] ["ready"] [["/", "v", "shared.png"]] 10]
      (MoveSt.mk [["/", "v", "a", "n1.md"], ["/", "v", "b", "n2.md"],
        ["/", "v", "shared.png"]] 0 0 0)).moved_atts = 1 ∧
    ["/", "d", "shared.png"] ∈ (runMove ["/", "d"]
      [NoteMetadata.mk ["/", "v", "a", "n1.md"] ["ready"] [["/", "v", "shared.png"]] 10,
       NoteMetadata.mk ["/", "v", "b", "n2.md"] ["ready"] [["/", "v", "shared.png"]] 10]
      (MoveSt.mk [["/", "v", "a", "n1.md"], ["/", "v", "b", "n2.md"],
        ["/", "v", "shared.png"]] 0 0 0)).files ∧
    ["/", "v", "shared.png"] ∉ (runMove ["/", "d"]
      [NoteMetadata.mk ["/", "v", "a", "n1.md"] ["ready"] [["/", "v", "shared.png"]] 10,
       NoteMetadata.mk ["/", "v", "b", "n2.md"] ["ready"] [["/", "v", "shared.png"]] 10]
      (MoveSt.mk [["/", "v", "a", "n1.md"], ["/", "v", "b", "n2.md"],
        ["/", "v", "shared.png"]] 0 0 0)).files := by
  have h1 : moveAttachment dest_dir st att = st := by
    simp [moveAttachment, h]
  exact ⟨h1, by rw [h1], by decide, by decide, by decide, by decide⟩

/-- Witness for C10 at a concrete missing attachment. -/
theorem shared_attachment_skip_witness :
    moveAttachment ["/", "d"] (MoveSt.mk [] 0 0 0) ["/", "x"] = MoveSt.mk [] 0 0 0 ∧
    (moveAttachment ["/", "d"] (MoveSt.mk [] 0 0 0) ["/", "x"]).errors =
      (MoveSt.mk ([] : List FsPath) 0 0 0).errors ∧
    (runMove ["/", "d"]
      [NoteMetadata.mk ["/", "v", "a", "n1.md"] ["ready"] [["/", "v", "shared.png"]] 10,
       NoteMetadata.mk ["/", "v", "b", "n2.md"] ["ready"] [["/", "v", "shared.png"]] 10]
      (MoveSt.mk [["/", "v", "a", "n1.md"], ["/", "v", "b", "n2.md"],
        ["/", "v", "shared.png"]] 0 0 0)).errors = 0 ∧
    (runMove ["/", "d"]
      [NoteMetadata.mk ["/", "v", "a", "n1.md"] ["ready"] [["/", "v", "shared.png"]] 10,
       NoteMetadata.mk ["/", "v", "b", "n2.md"] ["ready"] [["/", "v", "shared.png"]] 10]
      (MoveSt.mk [["/", "v", "a", "n1.md"], ["/", "v", "b", "n2.md"],
        ["/", "v", "shared.png"]] 0 0 0)).moved_atts = 1 ∧
    ["/", "d", "shared.png"] ∈ (runMove ["/", "d"]
      [NoteMetadata.mk ["/", "v", "a", "n1.md"] ["ready"] [["/", "v", "shared.png"]] 10,
       NoteMetadata.mk ["/", "v", "b", "n2.md"] ["ready"] [["/", "v", "shared.png"]] 10]
      (MoveSt.mk [["/", "v", "a", "n1.md"], ["/", "v", "b", "n2.md"],
        ["/", "v", "shared.png"]] 0 0 0)).files ∧
    ["/", "v", "shared.png"] ∉ (runMove ["/", "d"]
      [NoteMetadata.mk ["/", "v", "a", "n1.md"] ["ready"] [["/", "v", "shared.png"]] 10,
       NoteMetadata.mk ["/", "v", "b", "n2.md"] ["ready"] [["/", "v", "shared.png"]] 10]
      (MoveSt.mk [["/", "v", "a", "n1.md"], ["/", "v", "b", "n2.md"],
        ["/", "v", "shared.png"]] 0 0 0)).files :=
  shared_attachment_skip ["/", "d"] (MoveSt.mk [] 0 0 0) ["/", "x"] (by decide)
